import Mathlib

/-!
Verification of the context-composition core of an outline-aware search tool.

The development shallowly embeds the per-line context strategies of the
program (outline/indentation context, directive/preprocessor context,
window/textual context, descendant/children context), the printer sink and
the per-line driver, and proves the stated properties about them.

Strings are modelled as lists of characters (`List Char`); the texts the
program manipulates at the relevant byte offsets are ASCII, where byte and
character offsets coincide.  Machine integers (`usize`) are modelled as
`Nat`, with an explicit `% 2 ^ 64` where wrap-around matters (the directive
nesting level) and with explicit partiality (`Option`) where a debug-mode
underflow panic matters (the window context's subtraction).
-/

namespace Ogrep

/-- A numbered input line (`Line` in the source): 1-based number and text. -/
structure Line where
  number : Nat
  text : List Char
deriving Repr, DecidableEq

/-- Rust `char::is_ascii_alphanumeric`: ASCII letter or digit. -/
def isAsciiAlphanumeric (c : Char) : Bool :=
  (65 ≤ c.toNat && c.toNat ≤ 90) || (97 ≤ c.toNat && c.toNat ≤ 122) ||
    (48 ≤ c.toNat && c.toNat ≤ 57)

/-- `util::starts_with_word`: `text` starts with `pre` and the character
right after it, if any, is not ASCII alphanumeric. -/
def starts_with_word (text pre : List Char) : Bool :=
  List.isPrefixOf pre text &&
    (match (text.drop pre.length).head? with
     | some c => !isAsciiAlphanumeric c
     | none => true)

/-- `calculate_indentation`: offset of the first non-whitespace character,
or `none` for a blank/whitespace-only line. -/
def calculate_indentation (s : List Char) : Option Nat :=
  s.findIdx? (fun c => !c.isWhitespace)

/-- `SMART_BRANCH_PREFIXES` of `contexts/indentation.rs`: a continuation
prefix of the current line maps to the ancestor prefixes it may keep. -/
def smartBranchTable : List (List Char × List (List Char)) :=
  [("\x7d else ".data, ["if".data, "\x7d else if".data]),
   ("else:".data, ["if".data, "else if".data]),
   ("case".data, ["switch".data])]

/-- The smart-branch heuristic of `IndentationContext::pre_line`: the first
table row whose continuation prefix starts the stripped current line
decides; the stripped context line must then start with one of the row's
ancestor prefixes. -/
def smartBranchHeuristic (strippedLine strippedCtx : List Char) : Bool :=
  match smartBranchTable.find? (fun row => starts_with_word strippedLine row.1) with
  | some row => row.2.any (fun p => starts_with_word strippedCtx p)
  | none => false

/-- Rust `Iterator::rposition`: index of the last element satisfying `p`. -/
def rposition (p : α → Bool) : List α → Option Nat
  | [] => none
  | x :: rest =>
    match rposition p rest with
    | some i => some (i + 1)
    | none => if p x then some 0 else none

/-- `Vec::truncate(top.map(|t| t+1).unwrap_or(0))` applied to a list. -/
def truncAt (top : Option Nat) (xs : List α) : List α :=
  xs.take (match top with | some t => t + 1 | none => 0)

/-- `ContextEntry` of `contexts/indentation.rs`: a retained line together
with its indentation. -/
structure ContextEntry where
  line : Line
  indentation : Nat
deriving Repr, DecidableEq

/-- The retention test of `IndentationContext::pre_line`, scanning from the
top of the outline stack at a line with present indentation `ind`. -/
def retainEntry (smart : Bool) (lineText : List Char) (ind : Nat) (e : ContextEntry) : Bool :=
  if e.indentation < ind then true
  else if ind < e.indentation then false
  else if !smart then false
  else smartBranchHeuristic (lineText.drop ind) (e.line.text.drop e.indentation)

/-- `IndentationContext::pre_line`: absent indentation leaves the stack
unchanged; otherwise the stack is truncated just after the last retained
entry (`rposition` + `truncate`). -/
def IndentationContext.pre_line (smart : Bool) (line : Line) (indentation : Option Nat)
    (ctx : List ContextEntry) : List ContextEntry :=
  match indentation with
  | none => ctx
  | some ind => truncAt (rposition (retainEntry smart line.text ind) ctx) ctx

/-- `IndentationContext::post_line`: push the line when its indentation is
present.  The source also asserts the stack-order precondition there; that
the precondition always holds is proven below as the outline invariant. -/
def IndentationContext.post_line (line : Line) (indentation : Option Nat)
    (ctx : List ContextEntry) : List ContextEntry :=
  match indentation with
  | none => ctx
  | some ind => ctx ++ [⟨line, ind⟩]

/-- Drop elements failing `p` from the end of the list (keep the longest
prefix ending at the last element satisfying `p`). -/
def dropTrailingNonRetained (p : α → Bool) (xs : List α) : List α :=
  (xs.reverse.dropWhile (fun x => !p x)).reverse

/-- Modelled from the spec: the retained-entry test as the spec words it —
retained when the entry's indentation is less than the current line's, and,
when equal, only when smart branches is enabled and the heuristic holds. -/
def specRetained (smart : Bool) (lineText : List Char) (ind : Nat) (e : ContextEntry) : Bool :=
  decide (e.indentation < ind) ||
    (decide (e.indentation = ind) && smart &&
      smartBranchHeuristic (lineText.drop ind) (e.line.text.drop e.indentation))

/-- Modelled from the spec: truncate the stack to the longest prefix ending
at the topmost retained entry; absent indentation does nothing. -/
def outline_pre_line_spec (smart : Bool) (line : Line) (indentation : Option Nat)
    (ctx : List ContextEntry) : List ContextEntry :=
  match indentation with
  | none => ctx
  | some ind => dropTrailingNonRetained (specRetained smart line.text ind) ctx

/-- One processed line as the driver sees it for the outline context: the
line, its indentation, and whether the matcher accepted it. -/
structure OutlineEvent where
  line : Line
  indentation : Option Nat
  matched : Bool

/-- One driver step for the outline context: `pre_line`, then either
`clear` (on a match) or `post_line`. -/
def outlineStep (smart : Bool) (ctx : List ContextEntry) (e : OutlineEvent) :
    List ContextEntry :=
  let ctx1 := IndentationContext.pre_line smart e.line e.indentation ctx
  if e.matched then [] else IndentationContext.post_line e.line e.indentation ctx1

/-- The outline stack after the driver has processed a prefix of the input
stream, starting from the fresh (empty) context. -/
def outlineRun (smart : Bool) (events : List OutlineEvent) : List ContextEntry :=
  events.foldl (outlineStep smart) []

/-- The outline-stack order relation: strictly increasing indentation
without smart branches, non-decreasing with them. -/
def outlineRel (smart : Bool) (a b : ContextEntry) : Prop :=
  if smart then a.indentation ≤ b.indentation else a.indentation < b.indentation

/-! ### Window ("textual") context, from `contexts/textual.rs` -/

/-- `Entry` of `contexts/textual.rs`: a buffered line plus the forced-print
flag set while trailing context is armed. -/
structure WEntry where
  line : Line
  print_on_discard : Bool
deriving Repr, DecidableEq

/-- State of `TextualContext`: the FIFO buffer and the count of trailing
lines still to force-print after a match. -/
structure TextualState where
  context : List WEntry
  trailing_lines_left : Nat
deriving Repr, DecidableEq

/-- The pop loop of `TextualContext::pre_line`: while the buffer is
non-empty and the oldest entry's number is below `n - B`, pop it,
collecting the popped entries whose forced-print flag is set.  The `usize`
subtraction `n - B` is evaluated whenever the buffer is non-empty; `none`
models its debug-mode underflow panic when `B > n`. -/
def popDiscard (B n : Nat) : List WEntry → Option (List Line × List WEntry)
  | [] => some ([], [])
  | e :: rest =>
    if n < B then none
    else if e.line.number < n - B then
      match popDiscard B n rest with
      | none => none
      | some pr => some ((if e.print_on_discard then [e.line] else []) ++ pr.1, pr.2)
    else some ([], e :: rest)

/-- `TextualContext::pre_line`: discard expired entries, returning the ones
printed on discard (forced-print) and the remaining state. -/
def TextualContext.pre_line (B : Nat) (s : TextualState) (line : Line) :
    Option (List Line × TextualState) :=
  match popDiscard B line.number s.context with
  | none => none
  | some pr => some (pr.1, { s with context := pr.2 })

/-- `TextualContext::post_line`: push the line flagged by the trailing
counter, then decrement the counter if positive. -/
def TextualContext.post_line (s : TextualState) (line : Line) : TextualState :=
  { context := s.context ++ [⟨line, decide (0 < s.trailing_lines_left)⟩],
    trailing_lines_left := s.trailing_lines_left - 1 }

/-- `TextualContext::clear`: arm the trailing counter with the after-count;
the buffer itself is not cleared by this provider. -/
def TextualContext.clear (M : Nat) (s : TextualState) : TextualState :=
  { s with trailing_lines_left := M }

/-- `TextualContext::dump`: the buffered lines. -/
def TextualContext.dump (s : TextualState) : List Line :=
  s.context.map (fun e => e.line)

/-! ### Descendant ("children") context, from `contexts/children.rs` -/

/-- State of `ChildrenContext`: last observed indentation, the armed
threshold (set on `clear` after a match), and the buffered descendants. -/
structure ChildrenState where
  last_line_indentation : Nat
  match_indentation : Option Nat
  context : List Line
deriving Repr, DecidableEq

/-- `ChildrenContext::pre_line`: track the last present indentation. -/
def ChildrenContext.pre_line (s : ChildrenState) (indentation : Option Nat) : ChildrenState :=
  match indentation with
  | some i => { s with last_line_indentation := i }
  | none => s

/-- `ChildrenContext::post_line`: while armed, buffer the line when
`indentation.map(|i| i > threshold).unwrap_or(true)` holds (so a line with
absent indentation is buffered), otherwise disarm. -/
def ChildrenContext.post_line (s : ChildrenState) (line : Line) (indentation : Option Nat) :
    ChildrenState :=
  match s.match_indentation with
  | none => s
  | some t =>
    if (match indentation with | some i => decide (t < i) | none => true) then
      { s with context := s.context ++ [line] }
    else { s with match_indentation := none }

/-- `ChildrenContext::clear`: arm with the last observed indentation when
not already armed, and drop the buffer. -/
def ChildrenContext.clear (s : ChildrenState) : ChildrenState :=
  { s with
    match_indentation := match s.match_indentation with
      | none => some s.last_line_indentation
      | some t => some t,
    context := [] }

/-- `ChildrenContext::dump`: the buffered descendant lines. -/
def ChildrenContext.dump (s : ChildrenState) : List Line := s.context

/-! ### Printer sink, from `printer.rs` -/

/-- Observable items the printer writes for one input stream. -/
inductive PrintItem where
  | ellipsis
  | contextLine (n : Nat)
  | matchLine (n : Nat)
  | breakItem
deriving Repr, DecidableEq

/-- Appearance options behind the printer: break and ellipsis toggles. -/
structure PrinterOptions where
  breaks : Bool
  ellipsis : Bool
deriving Repr, DecidableEq

/-- `Printer` state: last printed line number and the one-shot break flag. -/
structure PrinterState where
  last_printed_lineno : Nat
  was_break : Bool
deriving Repr, DecidableEq

/-- `Printer::print_ellipsis`: writes the marker only when enabled. -/
def Printer.print_ellipsis (o : PrinterOptions) : List PrintItem :=
  if o.ellipsis then [.ellipsis] else []

/-- `Printer::maybe_print_ellipsis`: a pending break consumes the check;
otherwise a gap (`n > last + 1`) prints the ellipsis. -/
def Printer.maybe_print_ellipsis (o : PrinterOptions) (s : PrinterState) (n : Nat) :
    PrinterState × List PrintItem :=
  if s.was_break then ({ s with was_break := false }, [])
  else if s.last_printed_lineno + 1 < n then (s, Printer.print_ellipsis o)
  else (s, [])

/-- `Printer::print_context`: asserts `n > last_printed` (`none` models the
assertion failure), runs the ellipsis check, prints and records `n`. -/
def Printer.print_context (o : PrinterOptions) (s : PrinterState) (n : Nat) :
    Option (PrinterState × List PrintItem) :=
  if n ≤ s.last_printed_lineno then none
  else
    some ({ (Printer.maybe_print_ellipsis o s n).1 with last_printed_lineno := n },
      (Printer.maybe_print_ellipsis o s n).2 ++ [.contextLine n])

/-- `Printer::print_match`: same discipline as `print_context`. -/
def Printer.print_match (o : PrinterOptions) (s : PrinterState) (n : Nat) :
    Option (PrinterState × List PrintItem) :=
  if n ≤ s.last_printed_lineno then none
  else
    some ({ (Printer.maybe_print_ellipsis o s n).1 with last_printed_lineno := n },
      (Printer.maybe_print_ellipsis o s n).2 ++ [.matchLine n])

/-- `Printer::print_break`: writes a break and sets the one-shot flag only
when breaks are enabled. -/
def Printer.print_break (o : PrinterOptions) (s : PrinterState) :
    PrinterState × List PrintItem :=
  if o.breaks then ({ s with was_break := true }, [.breakItem]) else (s, [])

/-- The line-printing printer calls issued during one stream. -/
inductive PrinterCall where
  | context (n : Nat)
  | matchL (n : Nat)
  | brk
deriving Repr, DecidableEq

/-- One printer call. -/
def Printer.step (o : PrinterOptions) (s : PrinterState) :
    PrinterCall → Option (PrinterState × List PrintItem)
  | .context n => Printer.print_context o s n
  | .matchL n => Printer.print_match o s n
  | .brk => some (Printer.print_break o s)

/-- A sequence of printer calls from a given state, collecting output. -/
def Printer.runFrom (o : PrinterOptions) (s : PrinterState) :
    List PrinterCall → Option (PrinterState × List PrintItem)
  | [] => some (s, [])
  | c :: cs =>
    match Printer.step o s c with
    | none => none
    | some pr =>
      match Printer.runFrom o pr.1 cs with
      | none => none
      | some pr2 => some (pr2.1, pr.2 ++ pr2.2)

/-- A sequence of printer calls from the reset state of one stream. -/
def Printer.run (o : PrinterOptions) (cs : List PrinterCall) :
    Option (PrinterState × List PrintItem) :=
  Printer.runFrom o ⟨0, false⟩ cs

/-! ### Ordered merge with coalescing, from `process_input` -/

/-- The merge key: ascending line number (ties resolved to the earlier
iterator, as in the k-way merge the program uses). -/
def numLEb (a b : Line) : Bool := decide (a.number ≤ b.number)

/-- The `coalesce` accumulator: fold away subsequent entries with the same
line number, keeping the first. -/
def coalesceGo (x : Line) : List Line → List Line
  | [] => [x]
  | y :: rest => if x.number = y.number then coalesceGo x rest else x :: coalesceGo y rest

/-- itertools-style `coalesce` keeping one entry per equal-number run. -/
def coalesceByNumber : List Line → List Line
  | [] => []
  | x :: rest => coalesceGo x rest

/-- The merged, deduplicated context the program emits before a match:
k-way merge of the providers' dumps by ascending line number, then
coalescing of equal line numbers. -/
def mergeAll (dumps : List (List Line)) : List Line :=
  coalesceByNumber (dumps.foldr (fun l acc => List.merge l acc numLEb) [])

/-! ### Directive (preprocessor) context -/

/-- `Action` of `context.rs`. -/
inductive Action where
  | Continue
  | Skip
deriving Repr, DecidableEq

/-- The directive-handling policy (`Preprocessor` in `options.rs`). -/
inductive Preprocessor where
  | Context
  | Ignore
  | Preserve
deriving Repr, DecidableEq

/-- The four directive kinds. -/
inductive PreprocessorKind where
  | If
  | Else
  | Endif
  | Other
deriving Repr, DecidableEq

/-- A directive stack entry: the line and its nesting level. -/
structure PPEntry where
  line : Line
  level : Nat
deriving Repr, DecidableEq

/-- State of the directive context: current nesting level and the stack. -/
structure PreprocessorState where
  level : Nat
  context : List PPEntry
deriving Repr, DecidableEq

/-- The `usize` modulus. -/
def USIZE : Nat := 2 ^ 64

/-- `PreprocessorContext::pre_line` of `contexts/preprocessor.rs`,
parameterized by the external directive classifier (the regular-expression
engine is an external capability).  Level arithmetic is `usize`
(wrap-around modelled with an explicit modulus). -/
def PreprocessorContext.pre_line (policy : Preprocessor)
    (kind : List Char → Option PreprocessorKind) (s : PreprocessorState)
    (line : Line) (indentation : Option Nat) : Action × PreprocessorState :=
  match indentation with
  | none => (.Continue, s)
  | some ind =>
    match policy with
    | .Preserve => (.Continue, s)
    | .Ignore =>
      match kind (line.text.drop ind) with
      | some _ => (.Skip, s)
      | none => (.Continue, s)
    | .Context =>
      match kind (line.text.drop ind) with
      | none => (.Continue, s)
      | some .If => (.Skip, { s with level := (s.level + 1) % USIZE })
      | some .Else => (.Skip, s)
      | some .Endif =>
        (.Skip,
         { level := (s.level + (USIZE - 1)) % USIZE,
           context := truncAt (rposition (fun e => decide (e.level < s.level)) s.context)
             s.context })
      | some .Other => (.Skip, s)

/-- `PreprocessorContext::post_line`: under the `Context` policy, If/Else
lines are pushed at the current level. -/
def PreprocessorContext.post_line (policy : Preprocessor)
    (kind : List Char → Option PreprocessorKind) (s : PreprocessorState)
    (line : Line) (indentation : Option Nat) : PreprocessorState :=
  match indentation with
  | none => s
  | some ind =>
    match policy with
    | .Preserve => s
    | .Ignore => s
    | .Context =>
      match kind (line.text.drop ind) with
      | some .If => { s with context := s.context ++ [⟨line, s.level⟩] }
      | some .Else => { s with context := s.context ++ [⟨line, s.level⟩] }
      | _ => s

/-- `PreprocessorContext::clear`: empties the stack, keeps the level. -/
def PreprocessorContext.clear (s : PreprocessorState) : PreprocessorState :=
  { s with context := [] }

/-- `PreprocessorContext::dump`: the stacked directive lines. -/
def PreprocessorContext.dump (s : PreprocessorState) : List Line :=
  s.context.map (fun e => e.line)

/-- `preprocessor_instruction_kind` of `main.rs`: fixed line-start tests on
the indentation-stripped line. -/
def mainPPKind (s : List Char) : Option PreprocessorKind :=
  if List.isPrefixOf "#if ".data s then some .If
  else if List.isPrefixOf "#else".data s then some .Else
  else if List.isPrefixOf "#endif".data s then some .Endif
  else if List.isPrefixOf "#".data s then some .Other
  else none

/-- The `Preprocessor::Context` directive handling of `process_input` in
`main.rs` for one non-blank line with indentation `ind`: If increments the
level and pushes at the new level, Else pushes at the current level, Endif
truncates after the last entry below the pre-decrement level and then
decrements, Other does nothing; all four are skipped (excluded from
matching, the returned flag). -/
def mainDirectiveStep (st : PreprocessorState) (line : Line) (ind : Nat) :
    PreprocessorState × Bool :=
  match mainPPKind (line.text.drop ind) with
  | none => (st, false)
  | some .If =>
    ({ level := (st.level + 1) % USIZE,
       context := st.context ++ [⟨line, (st.level + 1) % USIZE⟩] }, true)
  | some .Else => ({ st with context := st.context ++ [⟨line, st.level⟩] }, true)
  | some .Endif =>
    ({ level := (st.level + (USIZE - 1)) % USIZE,
       context := truncAt (rposition (fun e => decide (e.level < st.level)) st.context)
         st.context }, true)
  | some .Other => (st, true)

/-- The directive state after `process_input` of `main.rs` has handled a
stream of (line, indentation) pairs under the `Context` policy. -/
def mainDirectiveRun (stream : List (Line × Nat)) : PreprocessorState :=
  stream.foldl (fun st p => (mainDirectiveStep st p.1 p.2).1) ⟨0, []⟩

/-- A directive stream is well-leveled when, tracking the exact nesting
level, every Endif arrives at a positive level and every If stays below the
`usize` modulus — i.e. the level counter never wraps. -/
def ppWellLeveled : Nat → List (Line × Nat) → Bool
  | _, [] => true
  | lvl, p :: rest =>
    match mainPPKind (p.1.text.drop p.2) with
    | some .If => decide (lvl + 1 < USIZE) && ppWellLeveled (lvl + 1) rest
    | some .Endif => decide (0 < lvl) && ppWellLeveled (lvl - 1) rest
    | _ => ppWellLeveled lvl rest

/-- The invariant of the `main.rs` directive state under the `Context`
policy: the level fits in `usize`, the stack is sorted by non-decreasing
nesting level, and no entry's level exceeds the current one. -/
def MainInv (st : PreprocessorState) : Prop :=
  st.level < USIZE ∧ st.context.Pairwise (fun a b => a.level ≤ b.level) ∧
    ∀ e ∈ st.context, e.level ≤ st.level

/-- A directive stream whose leading unmatched Endif underflows the
`usize` level counter. -/
def c6CexStream : List (Line × Nat) :=
  [(⟨1, "#endif".data⟩, 0), (⟨2, "#else".data⟩, 0),
   (⟨3, "#if a".data⟩, 0), (⟨4, "#if b".data⟩, 0)]

/-! ### The per-line driver: `process_input` of `main.rs` (lines 461-613) -/

/-- Observable emissions of the driver, as handed to the output. -/
inductive Emit where
  | heading
  | breakE
  | ellipsis
  | context (l : Line)
  | matchE (l : Line)
deriving Repr, DecidableEq

/-- The options `process_input` consults. -/
structure MainOptions where
  smart_branches : Bool
  preprocessor : Preprocessor
  context_lines_before : Nat
  context_lines_after : Nat
  breaks : Bool
  ellipsis : Bool
  print_filename : Bool
deriving Repr, DecidableEq

/-- The mutable state of `process_input`'s loop (`main.rs` 438-459). -/
structure MainState where
  context : List ContextEntry
  preprocessor_level : Nat
  preprocessor_context : List PPEntry
  surrounding_context : List WEntry
  match_found : Bool
  was_empty_line : Bool
  last_printed_lineno : Nat
  trailing_lines_left : Nat
deriving Repr, DecidableEq

/-- `SMART_BRANCH_PREFIXES` of `main.rs` (plain `starts_with`, trailing
spaces in the table entries). -/
def mainSmartBranchTable : List (List Char × List (List Char)) :=
  [("\x7d else ".data, ["if ".data, "\x7d else if ".data]),
   ("case ".data, ["switch ".data])]

/-- The smart-branch test of `main.rs` (lines 511-515): the first table
row whose continuation prefix starts the stripped line decides, by plain
prefix comparison. -/
def mainSmartBranchMatch (strippedLine strippedCtx : List Char) : Bool :=
  match mainSmartBranchTable.find? (fun row => List.isPrefixOf row.1 strippedLine) with
  | some row => row.2.any (fun p => List.isPrefixOf p strippedCtx)
  | none => false

/-- The outline retention test of `main.rs` (lines 502-518). -/
def mainRetainEntry (smart : Bool) (lineText : List Char) (ind : Nat) (e : ContextEntry) :
    Bool :=
  if e.indentation < ind then true
  else if ind < e.indentation then false
  else if !smart then false
  else mainSmartBranchMatch (lineText.drop ind) (e.line.text.drop e.indentation)

/-- The directive handling of `process_input` (`main.rs` 468-500) for a
non-blank line: under Preserve nothing happens; under Ignore any
classified line is skipped; under Context the If/Else/Endif/Other
handling of `mainDirectiveStep` applies.  The returned flag is the
`continue` — the exclusion from all further processing of the line. -/
def mainDirectiveHandle (policy : Preprocessor) (s : PreprocessorState) (line : Line)
    (ind : Nat) : PreprocessorState × Bool :=
  match policy with
  | .Preserve => (s, false)
  | .Ignore =>
    match mainPPKind (line.text.drop ind) with
    | some _ => (s, true)
    | none => (s, false)
  | .Context => mainDirectiveStep s line ind

/-- The window pop loop of `process_input` (`main.rs` 524-535): pop
expired entries, printing the forced-print ones (with the gap ellipsis,
when enabled) and advancing the last-printed number; `none` models the
usize underflow of `line_number - context_lines_before` evaluated on a
non-empty buffer. -/
def mainWindowPop (B n : Nat) (useEll : Bool) :
    Nat → List WEntry → Option (List Emit × Nat × List WEntry)
  | last, [] => some ([], last, [])
  | last, e :: rest =>
    if n < B then none
    else if e.line.number < n - B then
      if e.print_on_discard then
        match mainWindowPop B n useEll e.line.number rest with
        | none => none
        | some pr =>
          some (((if last + 1 < e.line.number then
                    (if useEll then [Emit.ellipsis] else []) else []) ++
                 [Emit.context e.line]) ++ pr.1, pr.2)
      else mainWindowPop B n useEll last rest
    else some ([], last, e :: rest)

/-- The merged-context emission loop of `process_input` (`main.rs`
571-578): each merged line may be preceded by a gap ellipsis (suppressed
for the first entry when a break stands in), and advances the
last-printed number. -/
def mainEmitMerged (wasEmpty breaks useEll : Bool) :
    Nat → Nat → List Line → List Emit × Nat
  | _, last, [] => ([], last)
  | i, last, l :: rest =>
    let e1 := if (!wasEmpty || !breaks || (i != 0)) && decide (last + 1 < l.number) then
        (if useEll then [Emit.ellipsis] else []) else []
    let pr := mainEmitMerged wasEmpty breaks useEll (i + 1) l.number rest
    (e1 ++ [Emit.context l] ++ pr.1, pr.2)

/-- The tail of `process_input`'s loop body (`main.rs` 524-612), reached
only when the line was not skipped: window pop loop, matcher, and either
the match emissions (filename heading, break, merged context with
ellipses, the match line, then the clears) or the push branch. -/
def mainAfterOutline (opt : MainOptions) (matcher : Line → Bool) (fp : Bool)
    (s : MainState) (line : Line) (indentation : Option Nat) :
    Option (MainState × List Emit) :=
  match mainWindowPop opt.context_lines_before line.number opt.ellipsis
      s.last_printed_lineno s.surrounding_context with
  | none => none
  | some wpr =>
    if matcher line then
      let headEmits := if !s.match_found && fp && opt.print_filename then [Emit.heading]
        else []
      let breakEmits := if s.was_empty_line && s.match_found && opt.breaks then [Emit.breakE]
        else []
      let merged := mergeAll [s.context.map (fun e => e.line),
        s.preprocessor_context.map (fun e => e.line), wpr.2.2.map (fun e => e.line)]
      let cpr := mainEmitMerged s.was_empty_line opt.breaks opt.ellipsis 0 wpr.2.1 merged
      let matchEll := if (!s.was_empty_line || !opt.breaks) && decide (cpr.2 + 1 < line.number)
        then (if opt.ellipsis then [Emit.ellipsis] else []) else []
      some ({ context := []
              preprocessor_level := s.preprocessor_level
              preprocessor_context := []
              surrounding_context := []
              match_found := true
              was_empty_line := false
              last_printed_lineno := line.number
              trailing_lines_left := opt.context_lines_after },
            wpr.1 ++ headEmits ++ breakEmits ++ cpr.1 ++ matchEll ++ [Emit.matchE line])
    else
      some ({ s with
              context := (match indentation with
                | some ind => s.context ++ [⟨line, ind⟩]
                | none => s.context)
              surrounding_context := wpr.2.2 ++ [⟨line, decide (0 < s.trailing_lines_left)⟩]
              last_printed_lineno := wpr.2.1
              trailing_lines_left := s.trailing_lines_left - 1 }, wpr.1)

/-- One iteration of `process_input`'s per-line loop (`main.rs` 461-613):
compute the indentation; on a non-blank line run the directive handling
first — a skip (`continue`) aborts all remaining processing of the line,
before the outline truncation and before the window pop loop — otherwise
truncate the outline stack; a blank line sets the blank-seen flag; then
the window pop loop, the matcher, and the match or push tail. -/
def mainProcessLine (opt : MainOptions) (matcher : Line → Bool) (fp : Bool)
    (s : MainState) (line : Line) : Option (MainState × List Emit) :=
  match calculate_indentation line.text with
  | some ind =>
    let pr := mainDirectiveHandle opt.preprocessor
      ⟨s.preprocessor_level, s.preprocessor_context⟩ line ind
    if pr.2 then
      some ({ s with
              preprocessor_level := pr.1.level
              preprocessor_context := pr.1.context }, [])
    else
      mainAfterOutline opt matcher fp
        { s with
          context := truncAt (rposition (mainRetainEntry opt.smart_branches line.text ind)
            s.context) s.context
          preprocessor_level := pr.1.level
          preprocessor_context := pr.1.context }
        line (some ind)
  | none =>
    mainAfterOutline opt matcher fp { s with was_empty_line := true } line none

end Ogrep

namespace Ogrep

theorem pre_line_none_eq (smart : Bool) (line : Line) (ctx : List ContextEntry) :
    IndentationContext.pre_line smart line none ctx = ctx := rfl

theorem post_line_none_eq (line : Line) (ctx : List ContextEntry) :
    IndentationContext.post_line line none ctx = ctx := rfl

theorem post_line_some_eq (line : Line) (ind : Nat) (ctx : List ContextEntry) :
    IndentationContext.post_line line (some ind) ctx = ctx ++ [⟨line, ind⟩] := rfl

theorem rposition_eq_none_iff (p : α → Bool) (xs : List α) :
    rposition p xs = none ↔ ∀ a ∈ xs, p a = false := by
  induction xs with
  | nil => simp [rposition]
  | cons x rest ih =>
    cases h : rposition p rest with
    | some i =>
      have hnall : ¬ ∀ a ∈ rest, p a = false := by
        intro hall
        rw [← ih, h] at hall
        exact absurd hall (by simp)
      simp only [rposition, h]
      exact iff_of_false (by simp)
        (fun hall => hnall (fun a ha => hall a (List.mem_cons_of_mem x ha)))
    | none =>
      have hrest := ih.1 h
      simp only [rposition, h]
      by_cases hx : p x = true
      · refine iff_of_false (by simp [hx]) (fun hall => ?_)
        have := hall x (List.mem_cons_self x rest)
        rw [hx] at this
        exact absurd this (by simp)
      · have hx' : p x = false := by simpa using hx
        refine iff_of_true (by simp [hx']) (fun a ha => ?_)
        rcases List.mem_cons.mp ha with rfl | ha
        · exact hx'
        · exact hrest a ha

theorem truncAt_rposition_eq (p : α → Bool) (xs : List α) :
    truncAt (rposition p xs) xs = dropTrailingNonRetained p xs := by
  induction xs with
  | nil => simp [truncAt, rposition, dropTrailingNonRetained]
  | cons x rest ih =>
    unfold dropTrailingNonRetained
    rw [List.reverse_cons, List.dropWhile_append]
    cases h : rposition p rest with
    | some i =>
      have hex : ¬ ∀ a ∈ rest, p a = false := by
        intro hall
        rw [← rposition_eq_none_iff, h] at hall
        exact absurd hall (by simp)
      have hne : rest.reverse.dropWhile (fun a => !p a) ≠ [] := by
        intro hcontra
        rw [List.dropWhile_eq_nil_iff] at hcontra
        exact hex (fun a ha => by simpa using hcontra a (by simpa using ha))
      rw [if_neg (by simpa using hne)]
      have lhs_eq : truncAt (rposition p (x :: rest)) (x :: rest) =
          x :: truncAt (rposition p rest) rest := by
        simp only [truncAt, rposition, h, List.take_succ_cons]
      rw [lhs_eq, ih]
      unfold dropTrailingNonRetained
      rw [List.reverse_append, List.reverse_cons, List.reverse_nil, List.nil_append,
        List.cons_append, List.nil_append]
    | none =>
      have hall : ∀ a ∈ rest, p a = false := (rposition_eq_none_iff p rest).1 h
      have hnil : rest.reverse.dropWhile (fun a => !p a) = [] := by
        rw [List.dropWhile_eq_nil_iff]
        intro a ha
        simp [hall a (by simpa using ha)]
      rw [if_pos (by simp [hnil])]
      by_cases hx : p x = true
      · have lhs_eq : truncAt (rposition p (x :: rest)) (x :: rest) = [x] := by
          simp [truncAt, rposition, h, hx]
        rw [lhs_eq]
        simp [List.dropWhile, hx]
      · have hx' : p x = false := by simpa using hx
        have lhs_eq : truncAt (rposition p (x :: rest)) (x :: rest) = [] := by
          simp [truncAt, rposition, h, hx']
        rw [lhs_eq]
        simp [List.dropWhile, hx']

theorem pre_line_some_eq (smart : Bool) (line : Line) (ind : Nat) (ctx : List ContextEntry) :
    IndentationContext.pre_line smart line (some ind) ctx =
      dropTrailingNonRetained (retainEntry smart line.text ind) ctx :=
  truncAt_rposition_eq _ _

theorem retainEntry_eq_specRetained (smart : Bool) (t : List Char) (ind : Nat)
    (e : ContextEntry) : retainEntry smart t ind e = specRetained smart t ind e := by
  unfold retainEntry specRetained
  rcases Nat.lt_trichotomy e.indentation ind with h | h | h
  · simp [h, Nat.lt_asymm h]
  · cases smart <;> simp [h]
  · simp [Nat.lt_asymm h, h, Nat.ne_of_gt h]

/-- C2: for a line with present indentation `i`, the outline `pre_line`
truncates the stack to exactly the longest prefix ending at the topmost
entry that is retained, where an entry is retained precisely when its
indentation is below `i`, or equal to `i` with smart branches enabled and
the smart-branch heuristic holding between the line and that entry; a line
with absent indentation leaves the stack unchanged. -/
theorem c2_outline_pre_line_truncation (smart : Bool) (line : Line)
    (indentation : Option Nat) (ctx : List ContextEntry) :
    IndentationContext.pre_line smart line indentation ctx =
      outline_pre_line_spec smart line indentation ctx := by
  cases indentation with
  | none => rfl
  | some ind =>
    rw [pre_line_some_eq]
    show dropTrailingNonRetained (retainEntry smart line.text ind) ctx =
      dropTrailingNonRetained (specRetained smart line.text ind) ctx
    have : retainEntry smart line.text ind = specRetained smart line.text ind := by
      funext e
      exact retainEntry_eq_specRetained smart line.text ind e
    rw [this]

theorem dropTrailingNonRetained_isPre (p : α → Bool) (xs : List α) :
    dropTrailingNonRetained p xs <+: xs := by
  unfold dropTrailingNonRetained
  have h := List.dropWhile_suffix (l := xs.reverse) (fun x => !p x)
  have h2 := List.reverse_prefix.mpr h
  simpa using h2

theorem getLast_dropTrailingNonRetained (p : α → Bool) (xs : List α) :
    ∀ e ∈ (dropTrailingNonRetained p xs).getLast?, p e = true := by
  intro e he
  unfold dropTrailingNonRetained at he
  rw [List.getLast?_reverse] at he
  have h := List.head?_dropWhile_not (fun x => !p x) xs.reverse
  cases hh : (xs.reverse.dropWhile (fun x => !p x)).head? with
  | none => rw [hh] at he; exact absurd he (by simp)
  | some a =>
    rw [hh] at he h
    simp only [Option.mem_def, Option.some.injEq] at he
    subst he
    simpa using h

theorem retainEntry_bound (smart : Bool) (t : List Char) (ind : Nat) (e : ContextEntry)
    (h : retainEntry smart t ind e = true) :
    if smart then e.indentation ≤ ind else e.indentation < ind := by
  unfold retainEntry at h
  rcases Nat.lt_trichotomy e.indentation ind with h1 | h1 | h1
  · cases smart <;> simp [h1, Nat.le_of_lt h1]
  · rw [if_neg (by omega), if_neg (by omega)] at h
    cases smart with
    | false => simp at h
    | true => simp [h1]
  · rw [if_neg (by omega), if_pos h1] at h
    exact absurd h (by simp)

theorem outlineSorted_pre_line (smart : Bool) (line : Line) (indentation : Option Nat)
    (ctx : List ContextEntry) (h : List.Chain' (outlineRel smart) ctx) :
    List.Chain' (outlineRel smart) (IndentationContext.pre_line smart line indentation ctx) := by
  cases indentation with
  | none => exact h
  | some ind =>
    rw [pre_line_some_eq]
    exact h.prefix (dropTrailingNonRetained_isPre _ ctx)

theorem outlineSorted_step (smart : Bool) (ctx : List ContextEntry) (e : OutlineEvent)
    (h : List.Chain' (outlineRel smart) ctx) :
    List.Chain' (outlineRel smart) (outlineStep smart ctx e) := by
  unfold outlineStep
  by_cases hm : e.matched
  · simp [hm]
  · rw [if_neg hm]
    cases hi : e.indentation with
    | none =>
      rw [post_line_none_eq]
      exact outlineSorted_pre_line smart e.line none ctx (by exact h)
    | some ind =>
      rw [post_line_some_eq]
      have hpre := outlineSorted_pre_line smart e.line (some ind) ctx h
      apply List.Chain'.append hpre (List.chain'_singleton _)
      intro x hx y hy
      simp only [List.head?_cons, Option.mem_def, Option.some.injEq] at hy
      subst hy
      have hx' : retainEntry smart e.line.text ind x = true := by
        rw [pre_line_some_eq] at hx
        exact getLast_dropTrailingNonRetained _ ctx x hx
      have hb := retainEntry_bound smart e.line.text ind x hx'
      unfold outlineRel
      cases smart <;> simpa using hb

theorem outlineSorted_foldl (smart : Bool) (events : List OutlineEvent)
    (ctx : List ContextEntry) (h : List.Chain' (outlineRel smart) ctx) :
    List.Chain' (outlineRel smart) (events.foldl (outlineStep smart) ctx) := by
  induction events generalizing ctx with
  | nil => exact h
  | cons e rest ih => exact ih _ (outlineSorted_step smart ctx e h)

/-- C1: after any processed prefix of the stream — hence after each
`post_line`/`clear` (the run state) and after each `pre_line` (the second
conjunct) — the outline stack is sorted by ascending indentation: strictly
increasing when smart branches is disabled, non-decreasing (equal
indentations may repeat, never decrease) when it is enabled. -/
theorem c1_outline_stack_sorted_invariant (smart : Bool) (events : List OutlineEvent)
    (line : Line) (indentation : Option Nat) :
    List.Chain' (outlineRel smart) (outlineRun smart events) ∧
    List.Chain' (outlineRel smart)
      (IndentationContext.pre_line smart line indentation (outlineRun smart events)) := by
  have h := outlineSorted_foldl smart events [] (by simp)
  exact ⟨h, outlineSorted_pre_line smart line indentation _ h⟩

end Ogrep

namespace Ogrep

/-- C7: the smart-branch word-boundary comparison succeeds exactly when the
text starts with the prefix and the character right after it, when one
exists, is not alphanumeric; in particular "ifoo" does not match the
prefix "if", while "if(a)" does. -/
theorem c7_starts_with_word_boundary :
    (∀ text pre : List Char, starts_with_word text pre = true ↔
      (pre <+: text ∧ ∀ c, (text.drop pre.length).head? = some c →
        isAsciiAlphanumeric c = false)) ∧
    starts_with_word "ifoo".data "if".data = false ∧
    starts_with_word "if(a)".data "if".data = true := by
  refine ⟨fun text pre => ?_, by decide, by decide⟩
  unfold starts_with_word
  rw [Bool.and_eq_true, List.isPrefixOf_iff_prefix]
  constructor
  · rintro ⟨h1, h2⟩
    refine ⟨h1, fun c hc => ?_⟩
    rw [hc] at h2
    simpa using h2
  · rintro ⟨h1, h2⟩
    refine ⟨h1, ?_⟩
    cases hc : (text.drop pre.length).head? with
    | none => simp
    | some c => simpa using h2 c hc

/-- C10 counterexample: with the before-context bound equal to the current
line number (both 2) and a non-empty buffer, the subtraction `2 - 2` does
not underflow and the pop loop is total, refuting the claim's underflow
condition "context_lines_before >= the current line's number". -/
theorem c10_counterexample_no_underflow_at_equal :
    popDiscard 2 2 [⟨⟨1, "x".data⟩, false⟩] = some ([], [⟨⟨1, "x".data⟩, false⟩]) ∧
    (2 : Nat) ≤ 2 ∧ ([⟨⟨1, "x".data⟩, false⟩] : List WEntry) ≠ [] := by
  exact ⟨by decide, le_refl 2, by decide⟩

/-- C10 (amended): the window pre_line pop loop is partial exactly when the
buffer is non-empty and the bound strictly exceeds the line number (the
unguarded usize subtraction underflows); for bound at most the line number
it is total and pops exactly the oldest entries whose line number is more
than the bound behind the current line, emitting the forced-print ones. -/
theorem c10_window_pre_line_totality (B n : Nat) (buf : List WEntry) :
    (popDiscard B n buf = none ↔ (buf ≠ [] ∧ n < B)) ∧
    (B ≤ n →
      popDiscard B n buf =
        some (((buf.takeWhile (fun e => decide (e.line.number + B < n))).filter
                 (fun e => e.print_on_discard)).map (fun e => e.line),
              buf.dropWhile (fun e => decide (e.line.number + B < n)))) := by
  constructor
  · induction buf with
    | nil => simp [popDiscard]
    | cons e rest ih =>
      by_cases hB : n < B
      · simp [popDiscard, hB]
      · have hrest : popDiscard B n rest ≠ none := by
          intro hc
          exact hB (ih.1 hc).2
        simp only [popDiscard, if_neg hB]
        by_cases hlt : e.line.number < n - B
        · rw [if_pos hlt]
          cases hp : popDiscard B n rest with
          | none => exact absurd hp hrest
          | some pr => simp [hB]
        · rw [if_neg hlt]
          simp [hB]
  · intro hBn
    induction buf with
    | nil => simp [popDiscard]
    | cons e rest ih =>
      have hB : ¬ n < B := by omega
      by_cases hlt : e.line.number < n - B
      · have h2 : e.line.number + B < n := by omega
        simp only [popDiscard, if_neg hB, if_pos hlt, ih, List.takeWhile_cons,
          List.dropWhile_cons, h2]
        cases hfl : e.print_on_discard <;> simp [List.filter_cons, hfl]
      · have h2 : ¬ (e.line.number + B < n) := by omega
        have h2' : (decide (e.line.number + B < n)) = false := by simpa using h2
        simp only [popDiscard, if_neg hB, if_neg hlt, List.takeWhile_cons,
          List.dropWhile_cons, h2', Bool.false_eq_true, if_false, List.filter_nil,
          List.map_nil]

/-- C8 counterexample: while the descendant context is armed (threshold 0),
a line with absent indentation IS buffered (the code's
`indentation.map(|i| i > t).unwrap_or(true)` is true for absent
indentation), refuting "a line with absent indentation is neither
buffered nor disarms it". -/
theorem c8_counterexample_blank_buffered :
    (ChildrenContext.post_line ⟨0, some 0, []⟩ ⟨3, []⟩ none).context = [⟨3, []⟩] ∧
    ([⟨3, []⟩] : List Line) ≠ [] ∧
    (ChildrenContext.post_line ⟨0, some 0, []⟩ ⟨3, []⟩ none).match_indentation = some 0 := by
  exact ⟨by decide, by decide, by decide⟩

/-- C8 (amended): while armed with threshold `t`, post_line buffers the
line exactly when its indentation is absent or present and strictly greater
than `t` (absent indentation is treated as deeper, so blank lines inside
the scope are kept); it disarms, and then never buffers, exactly when the
indentation is present and not greater than `t`. -/
theorem c8_children_post_line_armed (last t : Nat) (buf : List Line) (line : Line)
    (indentation : Option Nat) :
    ((ChildrenContext.post_line ⟨last, some t, buf⟩ line indentation).context = buf ++ [line] ↔
      (indentation = none ∨ ∃ i, indentation = some i ∧ t < i)) ∧
    ((ChildrenContext.post_line ⟨last, some t, buf⟩ line indentation).match_indentation = none ↔
      ∃ i, indentation = some i ∧ i ≤ t) ∧
    ((ChildrenContext.post_line ⟨last, some t, buf⟩ line indentation).match_indentation = none →
      (ChildrenContext.post_line ⟨last, some t, buf⟩ line indentation).context = buf) := by
  cases indentation with
  | none => simp [ChildrenContext.post_line]
  | some i =>
    by_cases h : t < i
    · have hd : (decide (t < i)) = true := by simpa using h
      refine ⟨?_, ?_, ?_⟩ <;> simp [ChildrenContext.post_line, hd] <;> omega
    · have hd : (decide (t < i)) = false := by simpa using h
      refine ⟨?_, ?_, ?_⟩ <;> simp [ChildrenContext.post_line, hd] <;> omega

end Ogrep

namespace Ogrep

theorem mpe_spec (o : PrinterOptions) (s : PrinterState) (n : Nat) :
    (PrintItem.ellipsis ∈ (Printer.maybe_print_ellipsis o s n).2 ↔
      (o.ellipsis = true ∧ s.last_printed_lineno + 1 < n ∧ s.was_break = false)) ∧
    (Printer.maybe_print_ellipsis o s n).1.was_break = false ∧
    (Printer.maybe_print_ellipsis o s n).1.last_printed_lineno = s.last_printed_lineno := by
  unfold Printer.maybe_print_ellipsis Printer.print_ellipsis
  by_cases hb : s.was_break
  · simp [hb]
  · have hb' : s.was_break = false := by simpa using hb
    by_cases hg : s.last_printed_lineno + 1 < n
    · by_cases he : o.ellipsis
      · simp [hb', hg, he]
      · have he' : o.ellipsis = false := by simpa using he
        simp [hb', hg, he']
    · simp [hb', hg]

theorem print_context_spec (o : PrinterOptions) (s : PrinterState) (n : Nat)
    (s' : PrinterState) (out' : List PrintItem)
    (h : Printer.print_context o s n = some (s', out')) :
    (PrintItem.ellipsis ∈ out' ↔
      (o.ellipsis = true ∧ s.last_printed_lineno + 1 < n ∧ s.was_break = false)) ∧
    s'.last_printed_lineno = n ∧ s.last_printed_lineno < n ∧ s'.was_break = false ∧
    out'.getLast? = some (PrintItem.contextLine n) := by
  unfold Printer.print_context at h
  by_cases hle : n ≤ s.last_printed_lineno
  · rw [if_pos hle] at h
    cases h
  · rw [if_neg hle] at h
    obtain ⟨hs, ho⟩ := Prod.mk.injEq .. ▸ (Option.some.inj h)
    subst hs
    subst ho
    obtain ⟨h1, h2, h3⟩ := mpe_spec o s n
    refine ⟨?_, rfl, by omega, h2, List.getLast?_concat _⟩
    simp only [List.mem_append, List.mem_singleton]
    rw [← h1]
    simp

theorem print_match_spec (o : PrinterOptions) (s : PrinterState) (n : Nat)
    (s' : PrinterState) (out' : List PrintItem)
    (h : Printer.print_match o s n = some (s', out')) :
    (PrintItem.ellipsis ∈ out' ↔
      (o.ellipsis = true ∧ s.last_printed_lineno + 1 < n ∧ s.was_break = false)) ∧
    s'.last_printed_lineno = n ∧ s.last_printed_lineno < n ∧ s'.was_break = false ∧
    out'.getLast? = some (PrintItem.matchLine n) := by
  unfold Printer.print_match at h
  by_cases hle : n ≤ s.last_printed_lineno
  · rw [if_pos hle] at h
    cases h
  · rw [if_neg hle] at h
    obtain ⟨hs, ho⟩ := Prod.mk.injEq .. ▸ (Option.some.inj h)
    subst hs
    subst ho
    obtain ⟨h1, h2, h3⟩ := mpe_spec o s n
    refine ⟨?_, rfl, by omega, h2, List.getLast?_concat _⟩
    simp only [List.mem_append, List.mem_singleton]
    rw [← h1]
    simp

theorem runFrom_wasBreak (o : PrinterOptions) (cs : List PrinterCall) :
    ∀ (s0 : PrinterState) (out0 : List PrintItem),
    (s0.was_break = true ↔ out0.getLast? = some PrintItem.breakItem) →
    ∀ s out, Printer.runFrom o s0 cs = some (s, out) →
    (s.was_break = true ↔ (out0 ++ out).getLast? = some PrintItem.breakItem) := by
  induction cs with
  | nil =>
    intro s0 out0 h0 s out h
    unfold Printer.runFrom at h
    obtain ⟨hs, ho⟩ := Prod.mk.injEq .. ▸ (Option.some.inj h)
    subst hs
    subst ho
    simpa using h0
  | cons c rest ih =>
    intro s0 out0 h0 s out h
    unfold Printer.runFrom at h
    cases hstep : Printer.step o s0 c with
    | none => rw [hstep] at h; cases h
    | some pr =>
      rw [hstep] at h
      replace h : (match Printer.runFrom o pr.1 rest with
                   | none => none
                   | some pr2 => some (pr2.1, pr.2 ++ pr2.2)) = some (s, out) := h
      cases hrun : Printer.runFrom o pr.1 rest with
      | none => rw [hrun] at h; cases h
      | some pr2 =>
        rw [hrun] at h
        obtain ⟨hs, ho⟩ := Prod.mk.injEq .. ▸ (Option.some.inj h)
        subst hs
        subst ho
        have hmid : pr.1.was_break = true ↔
            (out0 ++ pr.2).getLast? = some PrintItem.breakItem := by
          cases c with
          | context n =>
            obtain ⟨_, _, _, hwb, hlast⟩ :=
              print_context_spec o s0 n pr.1 pr.2 (by simpa [Printer.step] using hstep)
            rw [hwb, List.getLast?_append, hlast]
            simp
          | matchL n =>
            obtain ⟨_, _, _, hwb, hlast⟩ :=
              print_match_spec o s0 n pr.1 pr.2 (by simpa [Printer.step] using hstep)
            rw [hwb, List.getLast?_append, hlast]
            simp
          | brk =>
            have hpr : pr = Printer.print_break o s0 := by
              simpa [Printer.step] using hstep.symm
            subst hpr
            unfold Printer.print_break
            by_cases hbk : o.breaks
            · simp [hbk, List.getLast?_concat]
            · have hbk' : o.breaks = false := by simpa using hbk
              simpa [hbk'] using h0
        have := ih pr.1 (out0 ++ pr.2) hmid pr2.1 pr2.2 hrun
        simpa [List.append_assoc] using this

/-- C9: in any one stream of printer calls, an ellipsis is emitted before a
printed line exactly when the ellipsis option is enabled, the line number
exceeds the last printed one plus one, and the immediately preceding
emitted item was not a break; a break's suppression is one-shot (the flag
is clear after every printed line), and every printed line strictly
increases the tracked last-printed line number. -/
theorem c9_printer_ellipsis_gap (o : PrinterOptions) (cs : List PrinterCall)
    (s : PrinterState) (out : List PrintItem) (h : Printer.run o cs = some (s, out))
    (n : Nat) :
    (∀ s' out', Printer.print_context o s n = some (s', out') →
      ((PrintItem.ellipsis ∈ out' ↔
        (o.ellipsis = true ∧ s.last_printed_lineno + 1 < n ∧
          out.getLast? ≠ some PrintItem.breakItem)) ∧
       s'.last_printed_lineno = n ∧ s.last_printed_lineno < n ∧ s'.was_break = false)) ∧
    (∀ s' out', Printer.print_match o s n = some (s', out') →
      ((PrintItem.ellipsis ∈ out' ↔
        (o.ellipsis = true ∧ s.last_printed_lineno + 1 < n ∧
          out.getLast? ≠ some PrintItem.breakItem)) ∧
       s'.last_printed_lineno = n ∧ s.last_printed_lineno < n ∧ s'.was_break = false)) := by
  have hwb := runFrom_wasBreak o cs ⟨0, false⟩ [] (by simp) s out h
  simp only [List.nil_append] at hwb
  have hiff : s.was_break = false ↔ out.getLast? ≠ some PrintItem.breakItem := by
    constructor
    · intro hf hc
      rw [hwb.2 hc] at hf
      cases hf
    · intro hnb
      cases hv : s.was_break
      · rfl
      · exact absurd (hwb.1 hv) hnb
  constructor
  · intro s' out' hpc
    obtain ⟨h1, h2, h3, h4, _⟩ := print_context_spec o s n s' out' hpc
    exact ⟨by rw [h1, hiff], h2, h3, h4⟩
  · intro s' out' hpm
    obtain ⟨h1, h2, h3, h4, _⟩ := print_match_spec o s n s' out' hpm
    exact ⟨by rw [h1, hiff], h2, h3, h4⟩

/-- Witness for C9 at a concrete call sequence: after printing line 1 and a
break, printing line 5 emits no ellipsis (the break suppresses the gap),
and the last-printed number advances to 5. -/
theorem c9_witness :
    (PrintItem.ellipsis ∈ [PrintItem.contextLine 5] ↔
      (true = true ∧ 1 + 1 < 5 ∧
        ([PrintItem.matchLine 1, PrintItem.breakItem].getLast? ≠
          some PrintItem.breakItem))) ∧
    (5 : Nat) = 5 ∧ (1 : Nat) < 5 := by
  have h := c9_printer_ellipsis_gap ⟨true, true⟩ [.matchL 1, .brk] ⟨1, true⟩
    [.matchLine 1, .breakItem] (by decide) 5
  have h2 := h.1 ⟨5, false⟩ [PrintItem.contextLine 5] (by decide)
  exact ⟨h2.1, rfl, h2.2.2.1⟩

end Ogrep

namespace Ogrep

theorem pairwise_merge_num : ∀ (xs ys : List Line),
    xs.Pairwise (fun a b => a.number ≤ b.number) →
    ys.Pairwise (fun a b => a.number ≤ b.number) →
    (List.merge xs ys numLEb).Pairwise (fun a b => a.number ≤ b.number) := by
  intro xs
  induction xs with
  | nil => intro ys hx hy; simpa using hy
  | cons x xs ihx =>
    intro ys
    induction ys with
    | nil => intro hx hy; simpa using hx
    | cons y ys ihy =>
      intro hx hy
      by_cases hle : numLEb x y = true
      · rw [List.cons_merge_cons_pos _ _ _ hle]
        refine List.Pairwise.cons ?_ (ihx (y :: ys) hx.tail hy)
        intro z hz
        rw [List.mem_merge] at hz
        rcases hz with hz | hz
        · exact List.rel_of_pairwise_cons hx hz
        · rcases List.mem_cons.mp hz with rfl | hz
          · simpa [numLEb] using hle
          · have h1 : y.number ≤ z.number := List.rel_of_pairwise_cons hy hz
            have h2 : x.number ≤ y.number := by simpa [numLEb] using hle
            omega
      · rw [List.cons_merge_cons_neg _ _ _ hle]
        refine List.Pairwise.cons ?_ (ihy hx hy.tail)
        intro z hz
        rw [List.mem_merge] at hz
        have hyx : y.number ≤ x.number := by
          have := hle
          simp only [numLEb, decide_eq_true_eq] at this
          omega
        rcases hz with hz | hz
        · rcases List.mem_cons.mp hz with rfl | hz
          · exact hyx
          · have := List.rel_of_pairwise_cons hx hz
            omega
        · exact List.rel_of_pairwise_cons hy hz

theorem mem_coalesceGo (l : List Line) : ∀ (x : Line), ∀ z ∈ coalesceGo x l,
    z = x ∨ z ∈ l := by
  induction l with
  | nil =>
    intro x z hz
    simp only [coalesceGo, List.mem_singleton] at hz
    exact Or.inl hz
  | cons y rest ih =>
    intro x z hz
    by_cases he : x.number = y.number
    · rw [show coalesceGo x (y :: rest) = coalesceGo x rest from by
        simp [coalesceGo, he]] at hz
      rcases ih x z hz with h | h
      · exact Or.inl h
      · exact Or.inr (List.mem_cons_of_mem _ h)
    · rw [show coalesceGo x (y :: rest) = x :: coalesceGo y rest from by
        simp [coalesceGo, he]] at hz
      rcases List.mem_cons.mp hz with rfl | hz
      · exact Or.inl rfl
      · rcases ih y z hz with rfl | h
        · exact Or.inr (List.mem_cons_self _ _)
        · exact Or.inr (List.mem_cons_of_mem _ h)

theorem coalesceGo_covers (l : List Line) : ∀ (x : Line), ∀ z ∈ x :: l,
    ∃ w ∈ coalesceGo x l, w.number = z.number := by
  induction l with
  | nil =>
    intro x z hz
    rcases List.mem_cons.mp hz with rfl | h
    · exact ⟨z, by simp [coalesceGo], rfl⟩
    · exact absurd h (List.not_mem_nil z)
  | cons y rest ih =>
    intro x z hz
    by_cases he : x.number = y.number
    · have heq : coalesceGo x (y :: rest) = coalesceGo x rest := by
        simp [coalesceGo, he]
      rcases List.mem_cons.mp hz with hzx | hz2
      · obtain ⟨w, hw, hweq⟩ := ih x x (List.mem_cons_self _ _)
        exact ⟨w, heq ▸ hw, by rw [hzx, hweq]⟩
      · rcases List.mem_cons.mp hz2 with hzy | hz3
        · obtain ⟨w, hw, hweq⟩ := ih x x (List.mem_cons_self _ _)
          exact ⟨w, heq ▸ hw, by rw [hzy, hweq, he]⟩
        · obtain ⟨w, hw, hweq⟩ := ih x z (List.mem_cons_of_mem _ hz3)
          exact ⟨w, heq ▸ hw, hweq⟩
    · have heq : coalesceGo x (y :: rest) = x :: coalesceGo y rest := by
        simp [coalesceGo, he]
      rcases List.mem_cons.mp hz with hzx | hz2
      · exact ⟨x, heq ▸ List.mem_cons_self _ _, by rw [hzx]⟩
      · obtain ⟨w, hw, hweq⟩ := ih y z hz2
        exact ⟨w, heq ▸ List.mem_cons_of_mem _ hw, hweq⟩

theorem pairwise_lt_coalesceGo (l : List Line) : ∀ (x : Line),
    (x :: l).Pairwise (fun a b => a.number ≤ b.number) →
    (coalesceGo x l).Pairwise (fun a b => a.number < b.number) := by
  induction l with
  | nil => intro x _; simp [coalesceGo]
  | cons y rest ih =>
    intro x h
    by_cases he : x.number = y.number
    · rw [show coalesceGo x (y :: rest) = coalesceGo x rest from by
        simp [coalesceGo, he]]
      refine ih x (List.Pairwise.cons ?_ h.tail.tail)
      intro z hz
      exact List.rel_of_pairwise_cons h (List.mem_cons_of_mem _ hz)
    · rw [show coalesceGo x (y :: rest) = x :: coalesceGo y rest from by
        simp [coalesceGo, he]]
      refine List.Pairwise.cons ?_ (ih y h.tail)
      intro w hw
      have hxy : x.number ≤ y.number :=
        List.rel_of_pairwise_cons h (List.mem_cons_self _ _)
      have hxylt : x.number < y.number := by omega
      rcases mem_coalesceGo rest y w hw with rfl | hwr
      · exact hxylt
      · have : y.number ≤ w.number := List.rel_of_pairwise_cons h.tail hwr
        omega

end Ogrep

namespace Ogrep

theorem pairwise_foldr_merge (dumps : List (List Line))
    (h : ∀ l ∈ dumps, l.Pairwise (fun a b => a.number ≤ b.number)) :
    (dumps.foldr (fun l acc => List.merge l acc numLEb) []).Pairwise
      (fun a b => a.number ≤ b.number) := by
  induction dumps with
  | nil => simp
  | cons d rest ih =>
    simp only [List.foldr_cons]
    exact pairwise_merge_num d _ (h d (List.mem_cons_self _ _))
      (ih (fun l hl => h l (List.mem_cons_of_mem _ hl)))

theorem mem_foldr_merge (dumps : List (List Line)) (z : Line) :
    z ∈ dumps.foldr (fun l acc => List.merge l acc numLEb) [] ↔ ∃ l ∈ dumps, z ∈ l := by
  induction dumps with
  | nil => simp
  | cons d rest ih =>
    simp only [List.foldr_cons, List.mem_merge, ih]
    constructor
    · rintro (hz | ⟨l, hl, hz⟩)
      · exact ⟨d, List.mem_cons_self _ _, hz⟩
      · exact ⟨l, List.mem_cons_of_mem _ hl, hz⟩
    · rintro ⟨l, hl, hz⟩
      rcases List.mem_cons.mp hl with rfl | hl
      · exact Or.inl hz
      · exact Or.inr ⟨l, hl, hz⟩

theorem pairwise_lt_coalesceByNumber (l : List Line)
    (h : l.Pairwise (fun a b => a.number ≤ b.number)) :
    (coalesceByNumber l).Pairwise (fun a b => a.number < b.number) := by
  cases l with
  | nil => simp [coalesceByNumber]
  | cons x rest => exact pairwise_lt_coalesceGo rest x h

theorem mem_coalesceByNumber (l : List Line) : ∀ z ∈ coalesceByNumber l, z ∈ l := by
  cases l with
  | nil => intro z hz; simp [coalesceByNumber] at hz
  | cons x rest =>
    intro z hz
    rcases mem_coalesceGo rest x z hz with rfl | h
    · exact List.mem_cons_self _ _
    · exact List.mem_cons_of_mem _ h

theorem coalesceByNumber_covers (l : List Line) :
    ∀ z ∈ l, ∃ w ∈ coalesceByNumber l, w.number = z.number := by
  cases l with
  | nil => intro z hz; exact absurd hz (List.not_mem_nil z)
  | cons x rest => exact coalesceGo_covers rest x

/-- C3: the merged context is strictly increasing in line number when every
provider's dump is ascending, every merged entry comes from some provider's
dump, and every dumped line number is represented by exactly one merged
entry (at most one by strictness, at least one by coverage) — the k-way
merge with duplicate coalescing. -/
theorem c3_merged_context_coalesced_sorted (dumps : List (List Line))
    (h : ∀ l ∈ dumps, l.Pairwise (fun a b => a.number ≤ b.number)) :
    (mergeAll dumps).Pairwise (fun a b => a.number < b.number) ∧
    (∀ z ∈ mergeAll dumps, ∃ l ∈ dumps, z ∈ l) ∧
    (∀ l ∈ dumps, ∀ z ∈ l, ∃ w ∈ mergeAll dumps, w.number = z.number) := by
  unfold mergeAll
  refine ⟨pairwise_lt_coalesceByNumber _ (pairwise_foldr_merge dumps h), ?_, ?_⟩
  · intro z hz
    exact (mem_foldr_merge dumps z).mp (mem_coalesceByNumber _ z hz)
  · intro l hl z hz
    exact coalesceByNumber_covers _ z ((mem_foldr_merge dumps z).mpr ⟨l, hl, hz⟩)

/-- Witness for C3 at concrete dumps (outline, directive and window dumps
sharing line 1): the merged context is strictly ascending. -/
theorem c3_witness :
    (mergeAll [[⟨1, "a".data⟩, ⟨3, "b".data⟩], [⟨1, "a".data⟩], [⟨2, "c".data⟩]]).Pairwise
      (fun a b => a.number < b.number) :=
  (c3_merged_context_coalesced_sorted
    [[⟨1, "a".data⟩, ⟨3, "b".data⟩], [⟨1, "a".data⟩], [⟨2, "c".data⟩]] (by decide)).1

end Ogrep

namespace Ogrep

theorem rposition_exists_of_some (p : α → Bool) (xs : List α) (i : Nat)
    (h : rposition p xs = some i) : ∃ a ∈ xs, p a = true := by
  by_contra hc
  push_neg at hc
  have : ∀ a ∈ xs, p a = false := by
    intro a ha
    have := hc a ha
    simpa using this
  rw [← rposition_eq_none_iff, h] at this
  exact absurd this (by simp)

theorem truncAt_rposition_eq_filter (key : α → Nat) (p : α → Bool)
    (hdc : ∀ a b, p b = true → key a ≤ key b → p a = true) :
    ∀ xs : List α, xs.Pairwise (fun a b => key a ≤ key b) →
    truncAt (rposition p xs) xs = xs.filter p := by
  intro xs
  induction xs with
  | nil => intro _; simp [truncAt, rposition]
  | cons x rest ih =>
    intro hsort
    cases h : rposition p rest with
    | some i =>
      obtain ⟨a, ha, hpa⟩ := rposition_exists_of_some p rest i h
      have hpx : p x = true :=
        hdc x a hpa (List.rel_of_pairwise_cons hsort ha)
      have lhs_eq : truncAt (rposition p (x :: rest)) (x :: rest) =
          x :: truncAt (rposition p rest) rest := by
        simp only [truncAt, rposition, h, List.take_succ_cons]
      rw [lhs_eq, ih hsort.tail, List.filter_cons, if_pos (by simp [hpx])]
    | none =>
      have hall : ∀ a ∈ rest, p a = false := (rposition_eq_none_iff p rest).1 h
      have hfil : rest.filter p = [] := by
        rw [List.filter_eq_nil_iff]
        intro a ha
        simp [hall a ha]
      by_cases hx : p x = true
      · have lhs_eq : truncAt (rposition p (x :: rest)) (x :: rest) = [x] := by
          simp [truncAt, rposition, h, hx]
        rw [lhs_eq, List.filter_cons, if_pos (by simp [hx]), hfil]
      · have hx' : p x = false := by simpa using hx
        have lhs_eq : truncAt (rposition p (x :: rest)) (x :: rest) = [] := by
          simp [truncAt, rposition, h, hx']
        rw [lhs_eq, List.filter_cons, if_neg (by simp [hx']), hfil]

theorem wrapDec_eq (lvl : Nat) (h1 : 1 ≤ lvl) (h2 : lvl < USIZE) :
    (lvl + (USIZE - 1)) % USIZE = lvl - 1 := by
  have hU : 1 ≤ USIZE := by norm_num [USIZE]
  have hsum : lvl + (USIZE - 1) = USIZE + (lvl - 1) := by omega
  rw [hsum, Nat.add_mod_left, Nat.mod_eq_of_lt (by omega)]

theorem mainStep_inv (st : PreprocessorState) (p : Line × Nat) (rest : List (Line × Nat))
    (hinv : MainInv st) (hw : ppWellLeveled st.level (p :: rest) = true) :
    MainInv (mainDirectiveStep st p.1 p.2).1 ∧
    ppWellLeveled (mainDirectiveStep st p.1 p.2).1.level rest = true := by
  obtain ⟨hlt, hsort, hle⟩ := hinv
  unfold ppWellLeveled at hw
  unfold mainDirectiveStep
  cases hk : mainPPKind (p.1.text.drop p.2) with
  | none =>
    rw [hk] at hw
    exact ⟨⟨hlt, hsort, hle⟩, hw⟩
  | some k =>
    rw [hk] at hw
    cases k with
    | If =>
      simp only [Bool.and_eq_true, decide_eq_true_eq] at hw
      obtain ⟨hb, hw⟩ := hw
      have hmod : (st.level + 1) % USIZE = st.level + 1 := Nat.mod_eq_of_lt hb
      refine ⟨⟨by simpa [hmod] using hb, ?_, ?_⟩, by simpa [hmod] using hw⟩
      · rw [List.pairwise_append]
        refine ⟨hsort, List.pairwise_singleton _ _, ?_⟩
        intro a ha b hb2
        rcases List.mem_singleton.mp hb2 with rfl
        simp only [hmod]
        exact Nat.le_trans (hle a ha) (Nat.le_succ _)
      · intro e he
        rcases List.mem_append.mp he with he | he
        · simp only [hmod]
          exact Nat.le_trans (hle e he) (Nat.le_succ _)
        · rcases List.mem_singleton.mp he with rfl
          simp [hmod]
    | Else =>
      refine ⟨⟨hlt, ?_, ?_⟩, hw⟩
      · rw [List.pairwise_append]
        refine ⟨hsort, List.pairwise_singleton _ _, ?_⟩
        intro a ha b hb2
        rcases List.mem_singleton.mp hb2 with rfl
        exact hle a ha
      · intro e he
        rcases List.mem_append.mp he with he | he
        · exact hle e he
        · rcases List.mem_singleton.mp he with rfl
          exact Nat.le_refl _
    | Endif =>
      simp only [Bool.and_eq_true, decide_eq_true_eq] at hw
      obtain ⟨hb, hw⟩ := hw
      have hmod : (st.level + (USIZE - 1)) % USIZE = st.level - 1 := wrapDec_eq _ hb hlt
      have hfil : truncAt (rposition (fun e => decide (e.level < st.level)) st.context)
          st.context = st.context.filter (fun e => decide (e.level < st.level)) := by
        refine truncAt_rposition_eq_filter (fun e => e.level) _ ?_ st.context hsort
        intro a b hpb hab
        simp only [decide_eq_true_eq] at *
        omega
      refine ⟨⟨?_, ?_, ?_⟩, by simpa [hmod] using hw⟩
      · simp only [hmod]
        omega
      · simp only [hfil]
        exact hsort.filter _
      · intro e he
        simp only [hfil, List.mem_filter, decide_eq_true_eq] at he
        simp only [hmod]
        omega
    | Other => exact ⟨⟨hlt, hsort, hle⟩, hw⟩

theorem mainRun_inv (pfx : List (Line × Nat)) :
    ∀ (st : PreprocessorState) (rest : List (Line × Nat)),
    MainInv st → ppWellLeveled st.level (pfx ++ rest) = true →
    MainInv (pfx.foldl (fun st p => (mainDirectiveStep st p.1 p.2).1) st) ∧
    ppWellLeveled
      (pfx.foldl (fun st p => (mainDirectiveStep st p.1 p.2).1) st).level rest = true := by
  induction pfx with
  | nil =>
    intro st rest h1 h2
    exact ⟨h1, by simpa using h2⟩
  | cons p pfx ih =>
    intro st rest h1 h2
    have hstep := mainStep_inv st p (pfx ++ rest) h1 (by simpa using h2)
    exact ih _ rest hstep.1 hstep.2

end Ogrep

namespace Ogrep

/-- C6 counterexample: take the directive stream `#endif`, `#else`,
`#if a`, `#if b` (the leading unmatched Endif wraps the usize level to
2^64 - 1, so the Else entry is pushed at that level).  The next `#endif`
is then a directive line whose processing does NOT truncate the stack to
exactly the entries whose level is below the pre-decrement level: the
level-(2^64 - 1) entry survives the rposition-based truncation. -/
theorem c6_counterexample_level_wrap :
    mainPPKind ((⟨5, "#endif".data⟩ : Line).text.drop 0) = some PreprocessorKind.Endif ∧
    (mainDirectiveStep (mainDirectiveRun c6CexStream) ⟨5, "#endif".data⟩ 0).1.context ≠
      (mainDirectiveRun c6CexStream).context.filter
        (fun e => decide (e.level < (mainDirectiveRun c6CexStream).level)) := by
  exact ⟨by decide, by decide⟩

/-- C6 (amended): under the Context policy, for every stream of directive
lines that is well-leveled (every Endif arrives at a positive nesting
level and the usize level counter never wraps): each If line increments
the level and is pushed at the new level, each Else line is pushed at the
current level, each Endif line first truncates the stack to exactly the
entries whose level is less than the pre-decrement level and then
decrements the level, each Other directive line changes nothing; all four
kinds are excluded from pattern matching (the skip flag). -/
theorem c6_directive_context_steps (pfx : List (Line × Nat)) (p : Line × Nat)
    (sfx : List (Line × Nat)) (h : ppWellLeveled 0 (pfx ++ p :: sfx) = true) :
    (mainPPKind (p.1.text.drop p.2) = some PreprocessorKind.If →
      mainDirectiveStep (mainDirectiveRun pfx) p.1 p.2 =
        ({ level := (mainDirectiveRun pfx).level + 1,
           context := (mainDirectiveRun pfx).context ++
             [⟨p.1, (mainDirectiveRun pfx).level + 1⟩] }, true)) ∧
    (mainPPKind (p.1.text.drop p.2) = some PreprocessorKind.Else →
      mainDirectiveStep (mainDirectiveRun pfx) p.1 p.2 =
        ({ level := (mainDirectiveRun pfx).level,
           context := (mainDirectiveRun pfx).context ++
             [⟨p.1, (mainDirectiveRun pfx).level⟩] }, true)) ∧
    (mainPPKind (p.1.text.drop p.2) = some PreprocessorKind.Endif →
      mainDirectiveStep (mainDirectiveRun pfx) p.1 p.2 =
        ({ level := (mainDirectiveRun pfx).level - 1,
           context := (mainDirectiveRun pfx).context.filter
             (fun e => decide (e.level < (mainDirectiveRun pfx).level)) }, true)) ∧
    (mainPPKind (p.1.text.drop p.2) = some PreprocessorKind.Other →
      mainDirectiveStep (mainDirectiveRun pfx) p.1 p.2 = (mainDirectiveRun pfx, true)) := by
  have hinv0 : MainInv ⟨0, []⟩ := ⟨by norm_num [USIZE], by simp, by simp⟩
  have hrun : MainInv (mainDirectiveRun pfx) ∧
      ppWellLeveled (mainDirectiveRun pfx).level (p :: sfx) = true :=
    mainRun_inv pfx ⟨0, []⟩ (p :: sfx) hinv0 h
  obtain ⟨⟨hlt, hsort, hle⟩, hw⟩ := hrun
  unfold ppWellLeveled at hw
  refine ⟨?_, ?_, ?_, ?_⟩
  · intro hk
    rw [hk] at hw
    replace hw : (decide ((mainDirectiveRun pfx).level + 1 < USIZE) &&
        ppWellLeveled ((mainDirectiveRun pfx).level + 1) sfx) = true := hw
    simp only [Bool.and_eq_true, decide_eq_true_eq] at hw
    have hmod : ((mainDirectiveRun pfx).level + 1) % USIZE =
        (mainDirectiveRun pfx).level + 1 := Nat.mod_eq_of_lt hw.1
    unfold mainDirectiveStep
    rw [hk]
    simp only [hmod]
  · intro hk
    unfold mainDirectiveStep
    rw [hk]
  · intro hk
    rw [hk] at hw
    replace hw : (decide (0 < (mainDirectiveRun pfx).level) &&
        ppWellLeveled ((mainDirectiveRun pfx).level - 1) sfx) = true := hw
    simp only [Bool.and_eq_true, decide_eq_true_eq] at hw
    have hmod := wrapDec_eq _ hw.1 hlt
    have hfil := truncAt_rposition_eq_filter (fun e => e.level)
      (fun e => decide (e.level < (mainDirectiveRun pfx).level))
      (by intro a b hpb hab; simp only [decide_eq_true_eq] at *; omega)
      (mainDirectiveRun pfx).context hsort
    unfold mainDirectiveStep
    rw [hk, hfil]
    simp only [hmod]
  · intro hk
    unfold mainDirectiveStep
    rw [hk]

/-- Witness for C6 at a concrete well-leveled stream: after `#if a`, the
line `#endif` truncates to the entries below level 1 and decrements. -/
theorem c6_witness :
    mainDirectiveStep (mainDirectiveRun [(⟨1, "#if a".data⟩, 0)]) ⟨2, "#endif".data⟩ 0 =
      ({ level := (mainDirectiveRun [(⟨1, "#if a".data⟩, 0)]).level - 1,
         context := (mainDirectiveRun [(⟨1, "#if a".data⟩, 0)]).context.filter
           (fun e => decide (e.level < (mainDirectiveRun [(⟨1, "#if a".data⟩, 0)]).level)) },
       true) :=
  (c6_directive_context_steps [(⟨1, "#if a".data⟩, 0)] (⟨2, "#endif".data⟩, 0) []
    (by decide)).2.2.1 (by decide)

end Ogrep

namespace Ogrep

/-- Witness for C10: with bound 1 at line 5, the loop pops the expired
line 2 (forced-print, so emitted) and keeps line 4. -/
theorem c10_witness :
    popDiscard 1 5 ([⟨⟨2, "a".data⟩, true⟩, ⟨⟨4, "b".data⟩, false⟩] : List WEntry) =
      some ((((([⟨⟨2, "a".data⟩, true⟩, ⟨⟨4, "b".data⟩, false⟩] : List WEntry).takeWhile
          (fun e => decide (e.line.number + 1 < 5))).filter
            (fun e => e.print_on_discard)).map (fun e => e.line)),
        ([⟨⟨2, "a".data⟩, true⟩, ⟨⟨4, "b".data⟩, false⟩] : List WEntry).dropWhile
          (fun e => decide (e.line.number + 1 < 5))) :=
  (c10_window_pre_line_totality 1 5
    ([⟨⟨2, "a".data⟩, true⟩, ⟨⟨4, "b".data⟩, false⟩] : List WEntry)).2 (by decide)

/-- Witness for C8: armed with threshold 1, a line at indentation 3 is
buffered. -/
theorem c8_witness :
    ((ChildrenContext.post_line ⟨0, some 1, []⟩ ⟨7, "x".data⟩ (some 3)).context =
      [] ++ [⟨7, "x".data⟩] ↔
      ((some 3 : Option Nat) = none ∨ ∃ i, (some 3 : Option Nat) = some i ∧ 1 < i)) :=
  (c8_children_post_line_armed 0 1 [] ⟨7, "x".data⟩ (some 3)).1

/- Sanity checks of the embedding against the repository's own tests:
the ancestor-correctness example (foo/bar/baz/qux keep foo, qux) and the
smart-branch example (an if-branch ancestor retained for an else line,
but not for an "ifere" word-prefix line). -/

example :
    (outlineRun false
      [⟨⟨1, "foo".data⟩, some 0, false⟩, ⟨⟨2, "  bar".data⟩, some 2, false⟩,
       ⟨⟨3, "    baz".data⟩, some 4, false⟩, ⟨⟨4, "  qux".data⟩, some 2, false⟩,
       ⟨⟨5, "    bla".data⟩, some 4, false⟩]).map (fun e => e.line.number) =
      [1, 4, 5] := by decide

example :
    retainEntry true "\x7d else \x7b".data 0 ⟨⟨1, "if a > 0 \x7b".data⟩, 0⟩ = true := by
  decide

example :
    retainEntry true "\x7d else \x7b".data 0 ⟨⟨1, "ifere(a > 0) \x7b".data⟩, 0⟩ = false := by
  decide

example :
    retainEntry true "else:".data 0 ⟨⟨1, "if a > 0:".data⟩, 0⟩ = true := by decide

example : calculate_indentation "  qux".data = some 2 := by decide

example : calculate_indentation "   ".data = none := by decide

end Ogrep

namespace Ogrep

/-- C4 counterexample: under the Ignore policy, a directive line (`#x` at
line 2, with before-bound 0 and a forced-print line 1 still buffered) is
skipped BEFORE the window pop loop: the step leaves the whole state —
including the expired, forced-print window entry — untouched and emits
nothing, while the window pre_line work on that very state would have
popped and printed the entry.  This refutes the claimed window-first
order ("the window provider's pre_line work has already been performed"
on a directive-skipped line). -/
theorem c4_counterexample_skip_before_window :
    mainPPKind ("#x".data.drop 0) = some PreprocessorKind.Other ∧
    mainProcessLine ⟨true, Preprocessor.Ignore, 0, 0, true, true, false⟩ (fun _ => true)
      false ⟨[], 0, [], [⟨⟨1, "a".data⟩, true⟩], false, false, 0, 0⟩ ⟨2, "#x".data⟩ =
      some (⟨[], 0, [], [⟨⟨1, "a".data⟩, true⟩], false, false, 0, 0⟩, []) ∧
    mainWindowPop 0 2 true 0 [⟨⟨1, "a".data⟩, true⟩] =
      some ([Emit.context ⟨1, "a".data⟩], 1, []) ∧
    ([⟨⟨1, "a".data⟩, true⟩] : List WEntry) ≠ [] := by
  exact ⟨by decide, by decide, by decide, by decide⟩

/-- C4 (amended): in `process_input` the per-line order is directive
handling, then outline truncation, then the window pop loop; the first
(and only) skip — the directive `continue` — aborts ALL remaining
processing of the line: no outline truncation, no window pop or forced
print, no matcher call, no pushes, so on a directive-skipped line the
window's pre_line work has NOT yet been performed.  On a non-skipped,
non-matching line the outline truncation, the window pop (with its
emissions) and the pushes all happen, in that order. -/
theorem c4_main_line_order (opt : MainOptions) (matcher : Line → Bool) (fp : Bool)
    (s : MainState) (line : Line) (ind : Nat)
    (hind : calculate_indentation line.text = some ind) :
    (∀ pp : PreprocessorState,
      mainDirectiveHandle opt.preprocessor ⟨s.preprocessor_level, s.preprocessor_context⟩
        line ind = (pp, true) →
      mainProcessLine opt matcher fp s line =
        some ({ s with
                preprocessor_level := pp.level
                preprocessor_context := pp.context }, [])) ∧
    (∀ (pp : PreprocessorState) (emits0 : List Emit) (last0 : Nat) (rem : List WEntry),
      mainDirectiveHandle opt.preprocessor ⟨s.preprocessor_level, s.preprocessor_context⟩
        line ind = (pp, false) →
      matcher line = false →
      mainWindowPop opt.context_lines_before line.number opt.ellipsis
        s.last_printed_lineno s.surrounding_context = some (emits0, last0, rem) →
      mainProcessLine opt matcher fp s line =
        some ({ s with
                context := truncAt (rposition (mainRetainEntry opt.smart_branches
                  line.text ind) s.context) s.context ++ [⟨line, ind⟩]
                preprocessor_level := pp.level
                preprocessor_context := pp.context
                surrounding_context := rem ++ [⟨line, decide (0 < s.trailing_lines_left)⟩]
                last_printed_lineno := last0
                trailing_lines_left := s.trailing_lines_left - 1 }, emits0)) := by
  constructor
  · intro pp hpp
    simp only [mainProcessLine, hind, hpp, if_true]
  · intro pp emits0 last0 rem hpp hm hwp
    simp only [mainProcessLine, hind, hpp, Bool.false_eq_true, if_false,
      mainAfterOutline, hwp, hm]

/-- C5: in `process_input` (`main.rs` 466-500) under the Ignore and
Context policies, a non-blank directive-classified line short-circuits
the whole line: the result does not depend on the matcher (it is never
run), nothing is emitted (in particular the line is never emitted as a
match), and the state after the line equals the state before — the
outline stack, the window buffer with its trailing counter and
last-printed number, and both flags are exactly unchanged — apart from
the directive level and stack changes under Context (under Ignore even
those are unchanged).  The cited `process_input` predates the descendant
provider, so the descendant state trivially receives no update. -/
theorem c5_main_directive_short_circuit (opt : MainOptions) (m1 m2 : Line → Bool)
    (fp : Bool) (s : MainState) (line : Line) (ind : Nat) (k : PreprocessorKind)
    (hpol : opt.preprocessor = Preprocessor.Ignore ∨
      opt.preprocessor = Preprocessor.Context)
    (hind : calculate_indentation line.text = some ind)
    (hkind : mainPPKind (line.text.drop ind) = some k) :
    mainProcessLine opt m1 fp s line = mainProcessLine opt m2 fp s line ∧
    ∃ pp : PreprocessorState,
      mainProcessLine opt m1 fp s line =
        some ({ s with
                preprocessor_level := pp.level
                preprocessor_context := pp.context }, []) ∧
      (opt.preprocessor = Preprocessor.Ignore →
        pp = ⟨s.preprocessor_level, s.preprocessor_context⟩) := by
  have hskip : (mainDirectiveHandle opt.preprocessor
      ⟨s.preprocessor_level, s.preprocessor_context⟩ line ind).2 = true := by
    rcases hpol with hp | hp <;> rw [hp]
    · simp only [mainDirectiveHandle, hkind]
    · simp only [mainDirectiveHandle, mainDirectiveStep, hkind]
      cases k <;> rfl
  obtain ⟨pp, hpp⟩ : ∃ pp, mainDirectiveHandle opt.preprocessor
      ⟨s.preprocessor_level, s.preprocessor_context⟩ line ind = (pp, true) :=
    ⟨(mainDirectiveHandle opt.preprocessor
        ⟨s.preprocessor_level, s.preprocessor_context⟩ line ind).1, by rw [← hskip]⟩
  have key : ∀ m : Line → Bool, mainProcessLine opt m fp s line =
      some ({ s with
              preprocessor_level := pp.level
              preprocessor_context := pp.context }, []) := by
    intro m
    simp only [mainProcessLine, hind, hpp, if_true]
  refine ⟨(key m1).trans (key m2).symm, pp, key m1, ?_⟩
  intro hig
  rw [hig] at hpp
  have h2 : mainDirectiveHandle Preprocessor.Ignore
      ⟨s.preprocessor_level, s.preprocessor_context⟩ line ind =
      ((⟨s.preprocessor_level, s.preprocessor_context⟩ : PreprocessorState), true) := by
    simp only [mainDirectiveHandle, hkind]
  rw [h2] at hpp
  injection hpp with h3 _
  exact h3.symm

/-- Witness for C4: a directive line under the Ignore policy is skipped
with the state identical (empty window configuration). -/
theorem c4_main_witness :
    mainProcessLine ⟨true, Preprocessor.Ignore, 0, 0, true, true, false⟩ (fun _ => true)
      false ⟨[], 0, [], [], false, false, 0, 0⟩ ⟨1, "#x".data⟩ =
      some (⟨[], 0, [], [], false, false, 0, 0⟩, []) := by
  have h := (c4_main_line_order ⟨true, Preprocessor.Ignore, 0, 0, true, true, false⟩
    (fun _ => true) false ⟨[], 0, [], [], false, false, 0, 0⟩ ⟨1, "#x".data⟩ 0
    (by decide)).1 ⟨0, []⟩ (by decide)
  rw [h]

/-- Witness for C5: an `#if` line under the Context policy gives the same
result for two different matchers. -/
theorem c5_main_witness :
    mainProcessLine ⟨true, Preprocessor.Context, 0, 0, true, true, false⟩ (fun _ => true)
      false ⟨[], 0, [], [], false, false, 0, 0⟩ ⟨1, "#if x".data⟩ =
    mainProcessLine ⟨true, Preprocessor.Context, 0, 0, true, true, false⟩ (fun _ => false)
      false ⟨[], 0, [], [], false, false, 0, 0⟩ ⟨1, "#if x".data⟩ :=
  (c5_main_directive_short_circuit ⟨true, Preprocessor.Context, 0, 0, true, true, false⟩
    (fun _ => true) (fun _ => false) false ⟨[], 0, [], [], false, false, 0, 0⟩
    ⟨1, "#if x".data⟩ 0 PreprocessorKind.If (Or.inr rfl) (by decide) (by decide)).1

/- Sanity check of the driver embedding: an ordinary non-matching line is
pushed onto both the outline stack and the window buffer. -/

example :
    mainProcessLine ⟨false, Preprocessor.Preserve, 0, 0, true, false, false⟩ (fun _ => false)
      false ⟨[], 0, [], [], false, false, 0, 0⟩ ⟨1, "foo".data⟩ =
      some (⟨[⟨⟨1, "foo".data⟩, 0⟩], 0, [], [⟨⟨1, "foo".data⟩, false⟩], false, false, 0, 0⟩,
        []) := by decide

end Ogrep
